import Mathlib

/-!
# Verification of the chunk / embed / rank pipeline of the mcp-jina-ai server

Shallow embedding of `src/index.ts` (the authoritative variant; the unnamed
source `src/unnamed/part_001` is an earlier variant of the same file whose
helpers `chunkText` and `cosineSimilarity` are identical).

Modelling conventions:
* a JavaScript string is a `List Char` (`Text` below);
* JavaScript numbers appearing as similarity scores are modelled as an
  abstract similarity function into `ℚ` for the ranking pipeline (the
  ranking claims hold for every similarity function and every linearly
  ordered score type; the source instantiates it with `cosineSimilarity`),
  and as real numbers `ℝ` for the claims about `cosineSimilarity` itself;
* the embedding provider (`fetch` to the Jina API inside `callJinaApi` /
  `embedJina`) is a parameter `provider`; a provider error that survived the
  retry loop is `Except.error` with the error message, matching the `throw`
  that the tool handlers `catch`;
* `async`/`await` control flow is sequentialized; `Promise.all` rejects iff
  one of the per-item promises rejects, which `mapME` models.
-/

namespace JinaMcp

/-- JavaScript strings, modelled as lists of characters. -/
abbrev Text : Type := List Char

/-- The characters matched by the JavaScript regex class `\s` (the ASCII
part: space, tab, line feed, carriage return, vertical tab, form feed;
the Unicode space characters are omitted, no claim depends on them). -/
def isWs (c : Char) : Bool :=
  c = ' ' || c = '\t' || c = '\n' || c = '\r' || c = '\x0b' || c = '\x0c'

/-- Worker for `splitWs`.  `inSep = true` means the previous character was
part of a whitespace run whose token has already been emitted; `acc` holds
the (reversed) characters of the token being built.  This reproduces
JavaScript `str.split(/\s+/)`: boundary empty tokens are kept, interior
whitespace runs separate, and `"".split(/\s+/)` is `[""]`. -/
def splitWsAux : List Char → Bool → List Char → List (List Char)
  | [], _, acc => [acc.reverse]
  | c :: rest, inSep, acc =>
    if isWs c then
      if inSep then splitWsAux rest true acc
      else acc.reverse :: splitWsAux rest true []
    else splitWsAux rest false (c :: acc)

/-- `text.split(/\s+/)` from `chunkText` (src/index.ts line 83). -/
def splitWs (s : Text) : List Text :=
  splitWsAux s false []

/-- JavaScript `Array.prototype.join(sep)` (as a `List Text → Text`
operation): the empty list gives `""`, one element is itself, otherwise
interleave the separator. -/
def joinSep (sep : Text) : List Text → Text
  | [] => []
  | [w] => w
  | w :: ws => w ++ sep ++ joinSep sep ws

/-- Fuelled worker for `chunksOf`; fuel `l.length` suffices for every
`0 < n` because each step drops `n ≥ 1` elements. -/
def chunksOfAux {α : Type} : Nat → Nat → List α → List (List α)
  | 0, _, _ => []
  | _, _, [] => []
  | fuel + 1, n, l => l.take n :: chunksOfAux fuel n (l.drop n)

/-- The window loop of `chunkText` (src/index.ts lines 85-87): consecutive
slices `words.slice(i, i + chunkSize)`.  The source loop does not terminate
for `chunkSize = 0` (the index never advances); the model is total and every
claim about `chunkText` assumes `0 < chunkSize`. -/
def chunksOf {α : Type} (n : Nat) (l : List α) : List (List α) :=
  chunksOfAux l.length n l

/-- `chunkText(text, chunkSize = 200)` (src/index.ts lines 82-89): split on
whitespace runs, group the resulting tokens into windows of `chunkSize`,
rejoin each window with single spaces. -/
def chunkText (text : Text) (chunkSize : Nat := 200) : List Text :=
  (chunksOf chunkSize (splitWs text)).map (joinSep [' '])

/-- JavaScript `String.prototype.trim()` restricted to the whitespace class
`isWs`: strip leading and trailing whitespace. -/
def trim (s : Text) : Text :=
  ((s.dropWhile isWs).reverse.dropWhile isWs).reverse

/-- Modelled from the spec: worker for `normalizeWs`. -/
def normalizeWsAux : List Char → Bool → List Char
  | [], _ => []
  | c :: rest, inSep =>
    if isWs c then
      if inSep then normalizeWsAux rest true
      else ' ' :: normalizeWsAux rest true
    else c :: normalizeWsAux rest false

/-- Modelled from the spec: the "whitespace-normalized form" of a text —
every maximal run of whitespace replaced by one single space.  This is the
spec-side definition that the reconstruction claim compares `chunkText`
against. -/
def normalizeWs (s : Text) : Text :=
  normalizeWsAux s false

/-- Worker for `wordCount`; `inWord` records whether the previous character
belonged to a word. -/
def wordCountAux : List Char → Bool → Nat
  | [], _ => 0
  | c :: rest, inWord =>
    if isWs c then wordCountAux rest false
    else if inWord then wordCountAux rest true
    else wordCountAux rest true + 1

/-- The number of words of a text: the number of its maximal runs of
non-whitespace characters. -/
def wordCount (s : Text) : Nat :=
  wordCountAux s false

/-- A text is whitespace-free when none of its characters matches `\s`. -/
def WsFree (s : Text) : Prop :=
  ∀ c ∈ s, isWs c = false

/-! ## Lemmas about the tokenizer -/

theorem splitWsAux_ne_nil (l : List Char) (m : Bool) (acc : List Char) :
    splitWsAux l m acc ≠ [] := by
  induction l generalizing m acc with
  | nil => simp [splitWsAux]
  | cons c rest ih =>
    by_cases h : isWs c
    · cases m <;> simp [splitWsAux, h] <;> exact ih _ _
    · simpa [splitWsAux, h] using ih _ _

theorem joinSep_cons_of_ne_nil (sep w : Text) (rest : List Text) (h : rest ≠ []) :
    joinSep sep (w :: rest) = w ++ sep ++ joinSep sep rest := by
  cases rest with
  | nil => exact absurd rfl h
  | cons r rs => rfl

theorem joinSep_splitWsAux (l : List Char) (m : Bool) (acc : List Char) :
    joinSep [' '] (splitWsAux l m acc) = acc.reverse ++ normalizeWsAux l m := by
  induction l generalizing m acc with
  | nil => simp [splitWsAux, normalizeWsAux, joinSep]
  | cons c rest ih =>
    by_cases h : isWs c
    · cases m with
      | true => simpa [splitWsAux, normalizeWsAux, h] using ih true acc
      | false =>
        have hne := splitWsAux_ne_nil rest true []
        simp only [splitWsAux, normalizeWsAux, h, if_true, if_false, Bool.false_eq_true]
        rw [joinSep_cons_of_ne_nil _ _ _ hne, ih true []]
        simp
    · simpa [splitWsAux, normalizeWsAux, h] using ih false (c :: acc)

/-- Joining the whitespace-split tokens of `s` with single spaces is exactly
the whitespace-normalized form of `s`. -/
theorem joinSep_splitWs (s : Text) :
    joinSep [' '] (splitWs s) = normalizeWs s := by
  simpa using joinSep_splitWsAux s false []

theorem wsFree_of_mem_splitWsAux (l : List Char) (m : Bool) (acc : List Char)
    (hacc : ∀ c ∈ acc, isWs c = false) :
    ∀ w ∈ splitWsAux l m acc, WsFree w := by
  induction l generalizing m acc with
  | nil =>
    intro w hw
    simp only [splitWsAux, List.mem_singleton] at hw
    subst hw
    intro c hc
    exact hacc c (List.mem_reverse.mp hc)
  | cons c rest ih =>
    intro w hw
    by_cases h : isWs c
    · cases m with
      | true =>
        simp only [splitWsAux, h, if_true] at hw
        exact ih true acc hacc w hw
      | false =>
        simp only [splitWsAux, h, if_true, Bool.false_eq_true, if_false,
          List.mem_cons] at hw
        rcases hw with hw | hw
        · subst hw
          intro d hd
          exact hacc d (List.mem_reverse.mp hd)
        · exact ih true [] (by simp) w hw
    · simp only [splitWsAux, h, Bool.false_eq_true, if_false] at hw
      refine ih false (c :: acc) ?_ w hw
      intro d hd
      rcases List.mem_cons.mp hd with rfl | hd
      · simpa using h
      · exact hacc d hd

theorem wsFree_of_mem_splitWs (s : Text) : ∀ w ∈ splitWs s, WsFree w :=
  wsFree_of_mem_splitWsAux s false [] (by simp)

theorem splitWsAux_allWs (l : List Char) (acc : List Char)
    (h : ∀ c ∈ l, isWs c = true) :
    splitWsAux l true acc = [acc.reverse] := by
  induction l with
  | nil => rfl
  | cons c rest ih =>
    have hc : isWs c = true := h c (by simp)
    simp only [splitWsAux, hc, if_true]
    exact ih fun d hd => h d (List.mem_cons_of_mem _ hd)

/-- An all-whitespace, non-empty text splits into exactly the two boundary
empty tokens, just as in JavaScript. -/
theorem splitWs_allWs (s : Text) (hne : s ≠ []) (h : ∀ c ∈ s, isWs c = true) :
    splitWs s = [[], []] := by
  cases s with
  | nil => exact absurd rfl hne
  | cons c rest =>
    have hc : isWs c = true := h c (by simp)
    simp only [splitWs, splitWsAux, hc, if_true, Bool.false_eq_true, if_false]
    rw [splitWsAux_allWs rest [] fun d hd => h d (List.mem_cons_of_mem _ hd)]
    rfl

theorem splitWs_ne_nil (s : Text) : splitWs s ≠ [] :=
  splitWsAux_ne_nil s false []

/-! ## Lemmas about the window loop -/

theorem chunksOfAux_join {α : Type} (fuel n : Nat) (l : List α)
    (hn : 0 < n) (hfuel : l.length ≤ fuel) :
    (chunksOfAux fuel n l).flatten = l := by
  induction fuel generalizing l with
  | zero =>
    have : l = [] := List.length_eq_zero.mp (Nat.le_zero.mp hfuel)
    subst this
    rfl
  | succ fuel ih =>
    cases l with
    | nil => rfl
    | cons x xs =>
      simp only [chunksOfAux, List.flatten_cons]
      rw [ih]
      · exact List.take_append_drop n (x :: xs)
      · rw [List.length_drop]
        simp only [List.length_cons] at hfuel ⊢
        omega

theorem chunksOf_join {α : Type} (n : Nat) (l : List α) (hn : 0 < n) :
    (chunksOf n l).flatten = l :=
  chunksOfAux_join l.length n l hn le_rfl

theorem chunksOfAux_mem {α : Type} (fuel n : Nat) (l : List α) (p : List α)
    (hn : 0 < n) (hp : p ∈ chunksOfAux fuel n l) :
    p.length ≤ n ∧ p ≠ [] ∧ ∀ x ∈ p, x ∈ l := by
  induction fuel generalizing l with
  | zero => simp [chunksOfAux] at hp
  | succ fuel ih =>
    cases l with
    | nil => simp [chunksOfAux] at hp
    | cons y ys =>
      simp only [chunksOfAux, List.mem_cons] at hp
      rcases hp with rfl | hp
      · refine ⟨by simpa using Nat.min_le_left n _, ?_, fun x hx => List.take_subset _ _ hx⟩
        have hlen : ((y :: ys).take n).length = min n (y :: ys).length := List.length_take n _
        intro hnil
        rw [hnil] at hlen
        simp only [List.length_nil, List.length_cons] at hlen
        omega
      · obtain ⟨h1, h2, h3⟩ := ih _ hp
        exact ⟨h1, h2, fun x hx => List.drop_subset _ _ (h3 x hx)⟩

theorem chunksOf_mem {α : Type} (n : Nat) (l : List α) (p : List α)
    (hn : 0 < n) (hp : p ∈ chunksOf n l) :
    p.length ≤ n ∧ p ≠ [] ∧ ∀ x ∈ p, x ∈ l :=
  chunksOfAux_mem l.length n l p hn hp

theorem chunksOf_of_length_le {α : Type} (n : Nat) (l : List α)
    (hn : 0 < n) (hne : l ≠ []) (hlen : l.length ≤ n) :
    chunksOf n l = [l] := by
  cases l with
  | nil => exact absurd rfl hne
  | cons x xs =>
    show chunksOfAux (x :: xs).length n (x :: xs) = [x :: xs]
    simp only [List.length_cons]
    simp only [chunksOfAux]
    rw [List.take_of_length_le (by simpa using hlen),
      List.drop_eq_nil_of_le (by simpa using hlen)]
    cases h : xs.length <;> rfl

/-! ## Word counting -/

theorem wordCountAux_true_of_wsFree (t : Text) (ht : WsFree t) :
    wordCountAux t true = 0 := by
  induction t with
  | nil => rfl
  | cons c rest ih =>
    have hc : isWs c = false := ht c (by simp)
    simp only [wordCountAux, hc, Bool.false_eq_true, if_false, if_true]
    exact ih fun d hd => ht d (List.mem_cons_of_mem _ hd)

theorem wordCount_le_one_of_wsFree (t : Text) (ht : WsFree t) :
    wordCount t ≤ 1 := by
  cases t with
  | nil => simp [wordCount, wordCountAux]
  | cons c rest =>
    have hc : isWs c = false := ht c (by simp)
    simp only [wordCount, wordCountAux, hc, Bool.false_eq_true, if_false]
    rw [wordCountAux_true_of_wsFree rest fun d hd => ht d (List.mem_cons_of_mem _ hd)]

theorem wordCountAux_true_append_space (t : Text) (l : List Char) (ht : WsFree t) :
    wordCountAux (t ++ ' ' :: l) true = wordCountAux l false := by
  induction t with
  | nil => simp [wordCountAux, isWs]
  | cons c rest ih =>
    have hc : isWs c = false := ht c (by simp)
    simp only [List.cons_append, wordCountAux, hc, Bool.false_eq_true, if_false, if_true]
    exact ih fun d hd => ht d (List.mem_cons_of_mem _ hd)

theorem wordCountAux_false_append_space (t : Text) (l : List Char) (ht : WsFree t) :
    wordCountAux (t ++ ' ' :: l) false
      = wordCountAux l false + (if t = [] then 0 else 1) := by
  cases t with
  | nil => simp [wordCountAux, isWs]
  | cons c rest =>
    have hc : isWs c = false := ht c (by simp)
    simp only [List.cons_append, wordCountAux, hc, Bool.false_eq_true, if_false,
      List.cons_ne_nil, List.append_eq]
    rw [wordCountAux_true_append_space rest l fun d hd => ht d (List.mem_cons_of_mem _ hd)]

/-- Joining whitespace-free tokens with single spaces produces a text with
at most one word per token. -/
theorem wordCount_joinSep_le (ts : List Text) (h : ∀ t ∈ ts, WsFree t) :
    wordCount (joinSep [' '] ts) ≤ ts.length := by
  induction ts with
  | nil => simp [joinSep, wordCount, wordCountAux]
  | cons t rest ih =>
    cases rest with
    | nil =>
      simpa [joinSep] using wordCount_le_one_of_wsFree t (h t (by simp))
    | cons u us =>
      have hjoin : joinSep [' '] (t :: u :: us) = t ++ ' ' :: joinSep [' '] (u :: us) := by
        rw [joinSep_cons_of_ne_nil _ _ _ (by simp)]
        simp
      rw [wordCount, hjoin,
        wordCountAux_false_append_space t _ (h t (by simp))]
      have hrest := ih fun x hx => h x (List.mem_cons_of_mem _ hx)
      rw [wordCount] at hrest
      simp only [List.length_cons] at hrest ⊢
      split <;> omega

/-! ## Joining the chunk windows back together -/

theorem flatten_ne_nil_of_head (p : List Text) (ps : List (List Text))
    (hp : p ≠ []) : (p :: ps).flatten ≠ [] := by
  simp only [List.flatten_cons]
  intro h
  exact hp (List.append_eq_nil.mp h).1

theorem joinSep_append_of_ne_nil (sep : Text) (p q : List Text)
    (hp : p ≠ []) (hq : q ≠ []) :
    joinSep sep (p ++ q) = joinSep sep p ++ sep ++ joinSep sep q := by
  induction p with
  | nil => exact absurd rfl hp
  | cons w ws ih =>
    cases ws with
    | nil =>
      simpa using joinSep_cons_of_ne_nil sep w q hq
    | cons v vs =>
      rw [List.cons_append, joinSep_cons_of_ne_nil _ _ _ (by simp),
        joinSep_cons_of_ne_nil _ _ _ (by simp), ih (by simp)]
      simp [List.append_assoc]

/-- Re-joining with the same separator commutes with flattening a partition
into non-empty pieces. -/
theorem joinSep_map_joinSep (sep : Text) (pieces : List (List Text))
    (h : ∀ p ∈ pieces, p ≠ []) :
    joinSep sep (pieces.map (joinSep sep)) = joinSep sep pieces.flatten := by
  induction pieces with
  | nil => rfl
  | cons p ps ih =>
    cases ps with
    | nil => simp [joinSep]
    | cons q qs =>
      have hp : p ≠ [] := h p (by simp)
      have hq : q ≠ [] := h q (by simp)
      have hflat : (q :: qs).flatten ≠ [] := flatten_ne_nil_of_head q qs hq
      calc joinSep sep ((p :: q :: qs).map (joinSep sep))
          = joinSep sep p ++ sep ++ joinSep sep ((q :: qs).map (joinSep sep)) := by
            rw [List.map_cons, joinSep_cons_of_ne_nil _ _ _ (by simp)]
        _ = joinSep sep p ++ sep ++ joinSep sep (q :: qs).flatten := by
            rw [ih fun x hx => h x (List.mem_cons_of_mem _ hx)]
        _ = joinSep sep (p ++ (q :: qs).flatten) := by
            rw [joinSep_append_of_ne_nil sep p _ hp hflat]
        _ = joinSep sep (p :: q :: qs).flatten := by simp

/-! ## Claim C1 -/

/-- C1: for every text `T` and chunk size `n > 0`, joining the chunks of
`chunkText T n` with single spaces reconstructs the whitespace-normalized
form of `T`; the chunks arise from a partition of the whitespace-split token
sequence into consecutive non-empty windows (so no two chunks overlap); and
every chunk contains at most `n` words. -/
theorem chunkText_reconstruction (T : Text) (n : Nat) (hn : 0 < n) :
    joinSep [' '] (chunkText T n) = normalizeWs T
    ∧ (∃ pieces : List (List Text),
        pieces.flatten = splitWs T
        ∧ (∀ p ∈ pieces, p ≠ [])
        ∧ chunkText T n = pieces.map (joinSep [' ']))
    ∧ ∀ c ∈ chunkText T n, wordCount c ≤ n := by
  have hpieces : ∀ p ∈ chunksOf n (splitWs T), p ≠ [] :=
    fun p hp => (chunksOf_mem n _ p hn hp).2.1
  refine ⟨?_, ⟨chunksOf n (splitWs T), chunksOf_join n _ hn, hpieces, rfl⟩, ?_⟩
  · rw [chunkText, joinSep_map_joinSep _ _ hpieces, chunksOf_join n _ hn,
      joinSep_splitWs]
  · intro c hc
    rw [chunkText, List.mem_map] at hc
    obtain ⟨p, hp, rfl⟩ := hc
    obtain ⟨hlen, hne, hsub⟩ := chunksOf_mem n _ p hn hp
    exact le_trans
      (wordCount_joinSep_le p fun t ht => wsFree_of_mem_splitWs T t (hsub t ht))
      hlen

/-- Witness for C1 at the concrete text `" a  b c "` and chunk size 2. -/
theorem chunkText_reconstruction_witness :
    joinSep [' '] (chunkText " a  b c ".toList 2) = normalizeWs " a  b c ".toList :=
  (chunkText_reconstruction " a  b c ".toList 2 (by decide)).1

/-! ## Claim C6 -/

/-- C6 counterexample: `chunkText` applied to the empty string returns the
one-element sequence `[""]`, not the empty sequence; applied to the
all-whitespace text `" "` it returns `[" "]`, not the empty sequence; and
the one-word text `" a"` with chunk size 1 yields two chunks, not one
(the boundary empty token counts towards a window). -/
theorem chunkText_degenerate_counterexample :
    chunkText [] 200 = [[]]
    ∧ chunkText [] 200 ≠ []
    ∧ chunkText " ".toList 200 = [[' ']]
    ∧ chunkText " ".toList 200 ≠ []
    ∧ wordCount " a".toList = 1
    ∧ chunkText " a".toList 1 = [[], ['a']] := by
  decide

/-- C6 amended: `chunkText` applied to the empty string returns the single
chunk `""`; applied to any all-whitespace non-empty text with chunk size at
least 2 it returns the single whitespace chunk `" "`; and any text whose
whitespace-split token sequence has at most `chunkSize` tokens yields
exactly one chunk, the tokens rejoined with single spaces. -/
theorem chunkText_degenerate (T : Text) (n : Nat) (hn : 0 < n) :
    chunkText [] n = [[]]
    ∧ (T ≠ [] → (∀ c ∈ T, isWs c = true) → 2 ≤ n → chunkText T n = [[' ']])
    ∧ ((splitWs T).length ≤ n → chunkText T n = [joinSep [' '] (splitWs T)]) := by
  refine ⟨?_, ?_, ?_⟩
  · have hsplit : splitWs ([] : Text) = [[]] := rfl
    rw [chunkText, hsplit, chunksOf_of_length_le n [[]] hn (by simp) (by simpa using hn)]
    rfl
  · intro hne hws h2
    rw [chunkText, splitWs_allWs T hne hws,
      chunksOf_of_length_le n [[], []] hn (by simp) (by simpa using h2)]
    rfl
  · intro hlen
    rw [chunkText, chunksOf_of_length_le n (splitWs T) hn (splitWs_ne_nil T) hlen]
    rfl

/-- Witness for the amended C6 at the all-whitespace text `"\t\n"` and the
empty text, chunk size 3. -/
theorem chunkText_degenerate_witness :
    chunkText [] 3 = [[]] ∧ chunkText "\t\n".toList 3 = [[' ']] :=
  ⟨(chunkText_degenerate [] 3 (by decide)).1,
   (chunkText_degenerate "\t\n".toList 3 (by decide)).2.1 (by decide) (by decide)
     (by decide)⟩

/-! ## The ranking pipeline

The similarity scores are JavaScript numbers; the ranking claims do not
depend on how they are computed, so the pipeline is parametrized by a
similarity function `sim : Emb → Emb → ℚ` over an abstract embedding type
(the source instantiates `cosineSimilarity`, modelled over `ℝ` further
down) and scores live in the computable linearly ordered field `ℚ`. -/

/-- One entry of the `scored` array built by the tool handlers:
`{ c, score }`. -/
structure ScoredChunk where
  chunk : Text
  score : ℚ
deriving DecidableEq

/-- Insert into a descending-sorted list, after every element of greater or
equal score: the unique stable position. -/
def insertDesc (x : ScoredChunk) : List ScoredChunk → List ScoredChunk
  | [] => [x]
  | y :: ys => if y.score ≤ x.score then x :: y :: ys else y :: insertDesc x ys

/-- The stable descending sort `.sort((a, b) => b.score - a.score)`
(src/index.ts lines 257, 354).  `Array.prototype.sort` is required to be
stable (ECMAScript 2019), and a stable sort is determined by its input, so
insertion sort is an exact model. -/
def sortDesc : List ScoredChunk → List ScoredChunk
  | [] => []
  | x :: xs => insertDesc x (sortDesc xs)

/-- `validChunks.map((c, i) => ({ c, score: queryEmbedding &&
chunkEmbeddings[i] ? cosineSimilarity(queryEmbedding, chunkEmbeddings[i]) :
0 }))` (src/index.ts lines 249-256): a chunk whose embedding is missing, or
any chunk when the query embedding is missing, is scored 0.  (An embedding
value is a JavaScript array, which is always truthy, so the `&&` tests
exactly presence.) -/
def scoreChunks {Emb : Type} (sim : Emb → Emb → ℚ) (qe : Option Emb)
    (chunks : List Text) (embs : List Emb) : List ScoredChunk :=
  chunks.enum.map fun p =>
    ⟨p.2, match qe, embs[p.1]? with
          | some q, some e => sim q e
          | _, _ => 0⟩

/-- `scored.slice(0, 5).map((s) => s.c)` (src/index.ts lines 258, 355):
the chunk texts of the five highest-scored entries. -/
def bestChunks (scored : List ScoredChunk) : List Text :=
  ((sortDesc scored).take 5).map ScoredChunk.chunk

/-- The search handler's per-document chunk selection: score, stable sort
descending, keep the first five. -/
def searchSelect {Emb : Type} (sim : Emb → Emb → ℚ) (qe : Option Emb)
    (chunks : List Text) (embs : List Emb) : List Text :=
  bestChunks (scoreChunks sim qe chunks embs)

/-- The joined ranked result `bestChunks = scored.slice(0, 5).map(s =>
s.c).join("\n\n")`. -/
def rankedText (scored : List ScoredChunk) : Text :=
  joinSep ['\n', '\n'] (bestChunks scored)

/-! ## Lemmas about the stable sort -/

theorem insertDesc_perm (x : ScoredChunk) (l : List ScoredChunk) :
    (insertDesc x l).Perm (x :: l) := by
  induction l with
  | nil => rfl
  | cons y ys ih =>
    by_cases h : y.score ≤ x.score
    · simp [insertDesc, h]
    · simp only [insertDesc, h, if_false]
      exact ((ih.cons y).trans (List.Perm.swap x y ys))

theorem sortDesc_perm (l : List ScoredChunk) : (sortDesc l).Perm l := by
  induction l with
  | nil => rfl
  | cons x xs ih => exact (insertDesc_perm x (sortDesc xs)).trans (ih.cons x)

theorem insertDesc_sorted (x : ScoredChunk) (l : List ScoredChunk)
    (hl : l.Pairwise fun u v => v.score ≤ u.score) :
    (insertDesc x l).Pairwise fun u v => v.score ≤ u.score := by
  induction l with
  | nil => simp [insertDesc]
  | cons y ys ih =>
    rcases List.pairwise_cons.mp hl with ⟨hy, hys⟩
    by_cases h : y.score ≤ x.score
    · simp only [insertDesc, h, if_true]
      refine List.pairwise_cons.mpr ⟨?_, hl⟩
      intro z hz
      rcases List.mem_cons.mp hz with rfl | hz
      · exact h
      · exact le_trans (hy z hz) h
    · simp only [insertDesc, h, if_false]
      refine List.pairwise_cons.mpr ⟨?_, ih hys⟩
      intro z hz
      have hz2 : z ∈ x :: ys := (insertDesc_perm x ys).mem_iff.mp hz
      rcases List.mem_cons.mp hz2 with rfl | hz3
      · exact le_of_lt (lt_of_not_le h)
      · exact hy z hz3

theorem sortDesc_sorted (l : List ScoredChunk) :
    (sortDesc l).Pairwise fun u v => v.score ≤ u.score := by
  induction l with
  | nil => simp [sortDesc]
  | cons x xs ih => exact insertDesc_sorted x (sortDesc xs) ih

theorem insertDesc_filter_eq_score (x : ScoredChunk) (l : List ScoredChunk)
    (s : ℚ) (hx : x.score = s) :
    (insertDesc x l).filter (fun u => u.score == s)
      = x :: l.filter (fun u => u.score == s) := by
  induction l with
  | nil => simp [insertDesc, List.filter, hx]
  | cons y ys ih =>
    by_cases h : y.score ≤ x.score
    · simp only [insertDesc, h, if_true]
      rw [List.filter_cons_of_pos (by simpa using hx)]
    · have hy : (y.score == s) = false := by
        refine beq_eq_false_iff_ne.mpr ?_
        rw [← hx]
        exact ne_of_gt (lt_of_not_le h)
      simp only [insertDesc, h, if_false]
      rw [List.filter_cons_of_neg (by simp [hy]), ih,
        List.filter_cons_of_neg (by simp [hy])]

theorem insertDesc_filter_ne_score (x : ScoredChunk) (l : List ScoredChunk)
    (s : ℚ) (hx : x.score ≠ s) :
    (insertDesc x l).filter (fun u => u.score == s)
      = l.filter (fun u => u.score == s) := by
  induction l with
  | nil => simp [insertDesc, List.filter, beq_eq_false_iff_ne.mpr hx]
  | cons y ys ih =>
    by_cases h : y.score ≤ x.score
    · simp [insertDesc, h, List.filter_cons, beq_eq_false_iff_ne.mpr hx]
    · simp [insertDesc, h, List.filter_cons, ih]

/-- Stability: within each score class the sort keeps the original order. -/
theorem sortDesc_stable (l : List ScoredChunk) (s : ℚ) :
    (sortDesc l).filter (fun u => u.score == s)
      = l.filter (fun u => u.score == s) := by
  induction l with
  | nil => rfl
  | cons x xs ih =>
    by_cases hx : x.score = s
    · rw [sortDesc, insertDesc_filter_eq_score x _ s hx, ih,
        List.filter_cons_of_pos (by simpa using hx)]
    · rw [sortDesc, insertDesc_filter_ne_score x _ s hx, ih,
        List.filter_cons_of_neg (by simpa using hx)]

/-- A list whose scores are all zero is left untouched by the stable sort. -/
theorem sortDesc_of_all_zero (l : List ScoredChunk)
    (h : ∀ u ∈ l, u.score = 0) : sortDesc l = l := by
  induction l with
  | nil => rfl
  | cons x xs ih =>
    have hxs : sortDesc xs = xs := ih fun u hu => h u (List.mem_cons_of_mem _ hu)
    have hx : x.score = 0 := h x (by simp)
    rw [sortDesc, hxs]
    cases xs with
    | nil => rfl
    | cons y ys =>
      have hy : y.score = 0 := h y (by simp)
      simp [insertDesc, hy, hx]

/-! ## Lemmas about scoring and selection -/

theorem scoreChunks_length {Emb : Type} (sim : Emb → Emb → ℚ) (qe : Option Emb)
    (chunks : List Text) (embs : List Emb) :
    (scoreChunks sim qe chunks embs).length = chunks.length := by
  simp [scoreChunks]

theorem scoreChunks_map_chunk {Emb : Type} (sim : Emb → Emb → ℚ) (qe : Option Emb)
    (chunks : List Text) (embs : List Emb) :
    (scoreChunks sim qe chunks embs).map ScoredChunk.chunk = chunks := by
  rw [scoreChunks, List.map_map]
  have : (ScoredChunk.chunk ∘ fun p : Nat × Text =>
      (⟨p.2, match qe, embs[p.1]? with
             | some q, some e => sim q e
             | _, _ => 0⟩ : ScoredChunk)) = Prod.snd := by
    funext p
    rfl
  rw [this, List.enum_map_snd]

theorem sortDesc_length (l : List ScoredChunk) :
    (sortDesc l).length = l.length :=
  (sortDesc_perm l).length_eq

theorem bestChunks_length (scored : List ScoredChunk) :
    (bestChunks scored).length = min 5 scored.length := by
  rw [bestChunks, List.length_map, List.length_take, sortDesc_length]

/-- Scores of the chunks whose embedding is missing (index at or past the
end of the embedding list) are 0. -/
theorem scoreChunks_missing_score {Emb : Type} (sim : Emb → Emb → ℚ)
    (qe : Option Emb) (chunks : List Text) (embs : List Emb)
    (i : Nat) (u : ScoredChunk)
    (hu : (scoreChunks sim qe chunks embs)[i]? = some u)
    (hi : embs.length ≤ i) : u.score = 0 := by
  rw [scoreChunks, List.getElem?_map, List.getElem?_enum] at hu
  cases hc : chunks[i]? with
  | none => rw [hc] at hu; simp at hu
  | some c =>
    rw [hc] at hu
    have hemb : embs[i]? = none := List.getElem?_eq_none hi
    simp only [Option.map] at hu
    cases qe with
    | none => cases hu; rfl
    | some q =>
      rw [hemb] at hu
      cases hu
      rfl

/-- When the query embedding is absent every chunk is scored 0. -/
theorem scoreChunks_none_score {Emb : Type} (sim : Emb → Emb → ℚ)
    (chunks : List Text) (embs : List Emb) :
    ∀ u ∈ scoreChunks sim none chunks embs, u.score = 0 := by
  intro u hu
  rw [scoreChunks, List.mem_map] at hu
  obtain ⟨p, hp, rfl⟩ := hu
  rfl

/-- Selection over an all-zero-scored list is the original prefix: the
stable sort moves nothing. -/
theorem bestChunks_of_all_zero (scored : List ScoredChunk)
    (h : ∀ u ∈ scored, u.score = 0) :
    bestChunks scored = (scored.map ScoredChunk.chunk).take 5 := by
  rw [bestChunks, sortDesc_of_all_zero scored h, List.map_take]

/-! ## Claim C3 -/

/-- C3: for every list of scored chunks the ranked result consists of the
first five chunks of a stable descending sort — the sorted list is a
permutation of the input, its scores are descending, and within each score
class the original order is kept — joined with a blank-line separator;
with fewer than five chunks all of them are returned (no padding), and with
zero chunks the result is the empty string. -/
theorem ranking_selection (scored : List ScoredChunk) :
    (sortDesc scored).Perm scored
    ∧ (sortDesc scored).Pairwise (fun u v => v.score ≤ u.score)
    ∧ (∀ s : ℚ, (sortDesc scored).filter (fun u => u.score == s)
        = scored.filter (fun u => u.score == s))
    ∧ bestChunks scored = ((sortDesc scored).take 5).map ScoredChunk.chunk
    ∧ (bestChunks scored).length = min 5 scored.length
    ∧ (scored.length ≤ 5 → bestChunks scored = (sortDesc scored).map ScoredChunk.chunk)
    ∧ (scored = [] → rankedText scored = []) := by
  refine ⟨sortDesc_perm scored, sortDesc_sorted scored, sortDesc_stable scored,
    rfl, bestChunks_length scored, ?_, ?_⟩
  · intro hle
    rw [bestChunks, List.take_of_length_le (by rw [sortDesc_length]; exact hle)]
  · rintro rfl
    rfl

/-! ## `cosineSimilarity` (src/index.ts lines 104-115)

The loop `for (let i = 0; i < a.length && i < b.length; i++)` accumulates
`dot`, `normA` and `normB` over the common prefix of the two vectors.
JavaScript numbers are modelled as real numbers. -/

/-- The loop of `cosineSimilarity`: the triple `(dot, normA, normB)`
accumulated over the common prefix. -/
noncomputable def cosAux : List ℝ → List ℝ → ℝ × ℝ × ℝ
  | x :: xs, y :: ys =>
    let r := cosAux xs ys
    (x * y + r.1, x * x + r.2.1, y * y + r.2.2)
  | _, _ => (0, 0, 0)

/-- Mathematical dot product (over the common prefix when the lengths
differ, like the source's loop). -/
noncomputable def dotList : List ℝ → List ℝ → ℝ
  | x :: xs, y :: ys => x * y + dotList xs ys
  | _, _ => 0

/-- `cosineSimilarity(a, b)`: `0` when either accumulated squared norm is
`0`, otherwise `dot / (Math.sqrt(normA) * Math.sqrt(normB))`. -/
noncomputable def cosineSimilarity (a b : List ℝ) : ℝ :=
  let r := cosAux a b
  if r.2.1 = 0 ∨ r.2.2 = 0 then 0
  else r.1 / (Real.sqrt r.2.1 * Real.sqrt r.2.2)

/-- The Euclidean magnitude `|v|` of a vector. -/
noncomputable def magnitude (v : List ℝ) : ℝ :=
  Real.sqrt (dotList v v)

/-! ## Lemmas about `cosAux` and `dotList` -/

theorem cosAux_eq (a b : List ℝ) :
    cosAux a b = (dotList a b,
      dotList (a.take b.length) (a.take b.length),
      dotList (b.take a.length) (b.take a.length)) := by
  induction a generalizing b with
  | nil => cases b <;> simp [cosAux, dotList]
  | cons x xs ih =>
    cases b with
    | nil => simp [cosAux, dotList]
    | cons y ys =>
      simp only [cosAux, ih ys, List.length_cons, List.take_succ_cons, dotList]

theorem dotList_self_nonneg (v : List ℝ) : 0 ≤ dotList v v := by
  induction v with
  | nil => simp [dotList]
  | cons x xs ih =>
    have := mul_self_nonneg x
    simp only [dotList]
    linarith

theorem dotList_self_pos (v : List ℝ) (h : ∃ x ∈ v, x ≠ 0) :
    0 < dotList v v := by
  induction v with
  | nil => simp at h
  | cons x xs ih =>
    have hxs := dotList_self_nonneg xs
    have hx2 := mul_self_nonneg x
    simp only [dotList]
    obtain ⟨y, hy, hyne⟩ := h
    rcases List.mem_cons.mp hy with rfl | hy2
    · have hpos : 0 < y * y := mul_self_pos.mpr hyne
      linarith
    · have := ih ⟨y, hy2, hyne⟩
      linarith

theorem dotList_self_zero_of_all_zero (v : List ℝ) (h : ∀ x ∈ v, x = 0) :
    dotList v v = 0 := by
  induction v with
  | nil => simp [dotList]
  | cons x xs ih =>
    have hx : x = 0 := h x (by simp)
    simp only [dotList, hx, mul_zero, zero_add]
    exact ih fun y hy => h y (List.mem_cons_of_mem _ hy)

theorem all_zero_of_dotList_self_zero (v : List ℝ) (h : dotList v v = 0) :
    ∀ x ∈ v, x = 0 := by
  intro x hx
  by_contra hne
  exact absurd h (ne_of_gt (dotList_self_pos v ⟨x, hx, hne⟩))

theorem cosineSimilarity_eq (a b : List ℝ) :
    cosineSimilarity a b =
      if dotList (a.take b.length) (a.take b.length) = 0
          ∨ dotList (b.take a.length) (b.take a.length) = 0 then 0
      else dotList a b
        / (Real.sqrt (dotList (a.take b.length) (a.take b.length))
            * Real.sqrt (dotList (b.take a.length) (b.take a.length))) := by
  simp only [cosineSimilarity, cosAux_eq]

/-! ## Claim C8 -/

/-- C8: `cosineSimilarity` equals `dot(a,b) / (|a| * |b|)` for vectors of
equal dimension with non-zero magnitudes, is 0 whenever either vector has
zero magnitude (no division by zero arises), equals 1 on any non-zero
vector paired with itself, and equals 0 against any all-zero vector. -/
theorem cosineSimilarity_correct :
    (∀ a b : List ℝ, a.length = b.length → magnitude a ≠ 0 → magnitude b ≠ 0 →
      cosineSimilarity a b = dotList a b / (magnitude a * magnitude b))
    ∧ (∀ a b : List ℝ, magnitude a = 0 ∨ magnitude b = 0 → cosineSimilarity a b = 0)
    ∧ (∀ v : List ℝ, (∃ x ∈ v, x ≠ 0) → cosineSimilarity v v = 1)
    ∧ (∀ v z : List ℝ, (∀ x ∈ z, x = 0) → cosineSimilarity v z = 0) := by
  have hzero : ∀ v : List ℝ, magnitude v = 0 → ∀ x ∈ v, x = 0 := fun v hv =>
    all_zero_of_dotList_self_zero v
      ((Real.sqrt_eq_zero (dotList_self_nonneg v)).mp hv)
  refine ⟨?_, ?_, ?_, ?_⟩
  · intro a b hlen hma hmb
    have hA : dotList a a ≠ 0 := fun h0 => hma (by rw [magnitude, h0, Real.sqrt_zero])
    have hB : dotList b b ≠ 0 := fun h0 => hmb (by rw [magnitude, h0, Real.sqrt_zero])
    have h1 : a.take b.length = a := by rw [← hlen]; exact List.take_length a
    have h2 : b.take a.length = b := by rw [hlen]; exact List.take_length b
    rw [cosineSimilarity_eq, h1, h2, if_neg (by push_neg; exact ⟨hA, hB⟩)]
    rfl
  · intro a b h
    rw [cosineSimilarity_eq]
    rcases h with h | h
    · exact if_pos (Or.inl (dotList_self_zero_of_all_zero _
        fun x hx => hzero a h x (List.take_subset _ _ hx)))
    · exact if_pos (Or.inr (dotList_self_zero_of_all_zero _
        fun x hx => hzero b h x (List.take_subset _ _ hx)))
  · intro v hv
    have hpos := dotList_self_pos v hv
    rw [cosineSimilarity_eq, List.take_length,
      if_neg (by push_neg; exact ⟨ne_of_gt hpos, ne_of_gt hpos⟩),
      Real.mul_self_sqrt (le_of_lt hpos)]
    exact div_self (ne_of_gt hpos)
  · intro v z hz
    rw [cosineSimilarity_eq]
    exact if_pos (Or.inr (dotList_self_zero_of_all_zero _
      fun x hx => hz x (List.take_subset _ _ hx)))

/-- Witness for C8: the non-zero vector `[2]` has similarity 1 with
itself. -/
theorem cosineSimilarity_correct_witness : cosineSimilarity [(2 : ℝ)] [(2 : ℝ)] = 1 :=
  cosineSimilarity_correct.2.2.1 [(2 : ℝ)] ⟨2, by simp, by norm_num⟩

/-! ## Claim C10 -/

theorem cosAux_take_min (a b : List ℝ) :
    cosAux (a.take (min a.length b.length)) (b.take (min a.length b.length))
      = cosAux a b := by
  induction a generalizing b with
  | nil => cases b <;> simp [cosAux]
  | cons x xs ih =>
    cases b with
    | nil => simp [cosAux]
    | cons y ys =>
      simp only [List.length_cons, Nat.succ_min_succ, List.take_succ_cons, cosAux,
        ih ys]

/-- C10: `cosineSimilarity` is total on vectors of different lengths and
computes the dot product and both squared norms over only the first
`min (|a|, |b|)` components: it equals the cosine similarity of the two
vectors truncated to their common prefix. -/
theorem cosineSimilarity_truncation (a b : List ℝ) :
    cosineSimilarity a b
      = cosineSimilarity (a.take (min a.length b.length))
          (b.take (min a.length b.length))
    ∧ cosAux a b = (dotList a b,
        dotList (a.take b.length) (a.take b.length),
        dotList (b.take a.length) (b.take a.length)) := by
  refine ⟨?_, cosAux_eq a b⟩
  simp only [cosineSimilarity]
  rw [cosAux_take_min]

/-- Witness for C10: the trailing component of the longer vector is
ignored. -/
theorem cosineSimilarity_truncation_witness :
    cosineSimilarity [(1 : ℝ), 2] [(3 : ℝ)] = cosineSimilarity [(1 : ℝ)] [(3 : ℝ)] :=
  (cosineSimilarity_truncation [(1 : ℝ), 2] [(3 : ℝ)]).1

/-! ## Trim lemmas -/

theorem head?_dropWhile_isWs (l : List Char) (a : Char)
    (h : (l.dropWhile isWs).head? = some a) : isWs a = false := by
  have hnot := List.head?_dropWhile_not isWs l
  rw [h] at hnot
  exact hnot

theorem dropWhile_eq_self_of_head? (p : Char → Bool) (l : List Char)
    (h : ∀ a, l.head? = some a → p a = false) : l.dropWhile p = l := by
  cases l with
  | nil => rfl
  | cons c r => simp [List.dropWhile_cons, h c rfl]

/-- `trim` is idempotent: a trimmed text has no leading or trailing
whitespace left. -/
theorem trim_idempotent (s : Text) : trim (trim s) = trim s := by
  have h1 : (trim s).dropWhile isWs = trim s := by
    apply dropWhile_eq_self_of_head?
    intro a ha
    rw [trim, List.head?_reverse] at ha
    have hyne : (s.dropWhile isWs).reverse.dropWhile isWs ≠ [] := by
      intro h0
      rw [h0] at ha
      simp at ha
    obtain ⟨u, hu⟩ := List.dropWhile_suffix (l := (s.dropWhile isWs).reverse) isWs
    have hlast := List.getLast?_append_of_ne_nil u hyne
    rw [hu, List.getLast?_reverse] at hlast
    rw [← hlast] at ha
    exact head?_dropWhile_isWs s a ha
  rw [trim, h1,
    show (trim s).reverse = (s.dropWhile isWs).reverse.dropWhile isWs from by
      rw [trim, List.reverse_reverse],
    List.dropWhile_idempotent]
  rfl

/-! ## The embedding provider and `embedTexts`

(src/index.ts lines 92-102 and 119-195.) -/

/-- The two response shapes the embedding endpoint may return and that
`embedTexts` accepts: `{ data: [{ embedding }, ...] }` (the branch
`"data" in response`) or `{ embeddings: [...] }`. -/
inductive EmbeddingResponse (Emb : Type) where
  | withData (data : List Emb)
  | flat (embeddings : List Emb)

/-- `"data" in response ? response.data.map((d) => d.embedding) :
response.embeddings` (src/index.ts lines 98-101). -/
def extractEmbeddings {Emb : Type} : EmbeddingResponse Emb → List Emb
  | .withData l => l
  | .flat l => l

/-- One call of `embedJina` (a `fetch` inside `callJinaApi`):
`Except.error msg` models a request that still failed after the one retry
of `callJinaApi` and whose error propagates to the tool handler. -/
abbrev Provider (Emb : Type) : Type :=
  List Text → Except Text (EmbeddingResponse Emb)

/-- `embedTexts(texts)` (src/index.ts lines 92-102), paired with the list
of arguments of the provider calls it makes: trim every input and drop the
ones that are then empty; return `[]` with no call when nothing remains;
otherwise make exactly one provider call on the trimmed inputs. -/
def embedTextsRun {Emb : Type} (provider : Provider Emb) (texts : List Text) :
    Except Text (List Emb) × List (List Text) :=
  let trimmed := (texts.map trim).filter (fun t => !t.isEmpty)
  if trimmed.isEmpty then (.ok [], [])
  else
    match provider trimmed with
    | .error e => (.error e, [trimmed])
    | .ok resp => (.ok (extractEmbeddings resp), [trimmed])

/-! ## Claim C7 -/

/-- C7: every provider call made by `embedTexts` carries only texts that
are trimmed and non-empty (the provider is never asked to embed an empty
string, and all-whitespace inputs are excluded), and when the filtered
input list is empty the result is the empty list with no provider call. -/
theorem embedTexts_filters {Emb : Type} (provider : Provider Emb)
    (texts : List Text) :
    (∀ call ∈ (embedTextsRun provider texts).2, ∀ t ∈ call, trim t = t ∧ t ≠ [])
    ∧ ((∀ t ∈ texts, trim t = []) →
        embedTextsRun provider texts = (.ok [], [])) := by
  constructor
  · intro call hcall t ht
    have hmem : t ∈ (texts.map trim).filter (fun t => !t.isEmpty) := by
      rw [embedTextsRun] at hcall
      by_cases hemp : ((texts.map trim).filter (fun t => !t.isEmpty)).isEmpty
      · simp only [hemp, if_true] at hcall
        simp at hcall
      · simp only [hemp, Bool.false_eq_true, if_false] at hcall
        rcases hprov : provider ((texts.map trim).filter fun t => !t.isEmpty) with e | r
        all_goals
          rw [hprov] at hcall
          simp only [List.mem_singleton] at hcall
          subst hcall
          exact ht
    rcases List.mem_filter.mp hmem with ⟨hmap, hne⟩
    obtain ⟨s, _, rfl⟩ := List.mem_map.mp hmap
    refine ⟨trim_idempotent s, ?_⟩
    intro h0
    rw [h0] at hne
    simp at hne
  · intro hall
    have hnil : (texts.map trim).filter (fun t => !t.isEmpty) = [] := by
      rw [List.filter_eq_nil_iff]
      intro a ha
      obtain ⟨s, hs, rfl⟩ := List.mem_map.mp ha
      rw [hall s hs]
      simp
    rw [embedTextsRun, hnil]
    rfl

/-- Witness for C7 at the concrete input list `["", "  x  ", " "]` with an
always-failing provider: the filtered list `["x"]` is trimmed and
non-empty. -/
theorem embedTexts_filters_witness :
    ∀ call ∈ (embedTextsRun (fun _ => Except.error "down".toList : Provider Unit)
        ["".toList, "  x  ".toList, " ".toList]).2,
      ∀ t ∈ call, trim t = t ∧ t ≠ [] :=
  (embedTexts_filters (fun _ => Except.error "down".toList : Provider Unit)
    ["".toList, "  x  ".toList, " ".toList]).1

/-! ## The tool handlers (src/index.ts lines 199-379)

`searchJina` / `readJina` responses are inputs of the models (their shapes
are validated by zod before the handlers run); the embedding provider is
the only modelled effect. -/

/-- One item of the search response: `{ title, url, content, ... }`
(`SearchResponseSchema`, src/unnamed/part_000 lines 52-66). -/
structure SearchItem where
  title : Text
  url : Text
  content : Text
deriving DecidableEq

/-- `{ content: [{ type: "text", text }] }` with the fixed tag dropped. -/
structure TextContent where
  text : Text
deriving DecidableEq

/-- The MCP output envelope; `McpContentSchema` (src/index.ts lines 20-29)
requires `content` to hold at least one element. -/
structure Envelope where
  content : List TextContent
deriving DecidableEq

def mkEnvelope (t : Text) : Envelope := ⟨[⟨t⟩]⟩

/-- Decimal rendering of the 1-based index in `Result ${index + 1}`. -/
def natText (n : Nat) : Text := (toString n).toList

/-- `Result ${index + 1}:\nTitle: ${item.title}\nURL: ${item.url}` — the
part shared by the two per-item template strings. -/
def itemHeader (i : Nat) (it : SearchItem) : Text :=
  "Result ".toList ++ natText (i + 1) ++ ":\nTitle: ".toList ++ it.title
    ++ "\nURL: ".toList ++ it.url

/-- The early return for a document with no valid chunks (src/index.ts
line 241): `...Relevant Content: \n\n`. -/
def searchItemEmptyText (i : Nat) (it : SearchItem) : Text :=
  itemHeader i it ++ "\nRelevant Content: \n\n".toList

/-- The normal per-item result (src/index.ts line 259):
`...Relevant Content:\n${bestChunks}\n---`. -/
def searchItemFullText (i : Nat) (it : SearchItem) (best : Text) : Text :=
  itemHeader i it ++ "\nRelevant Content:\n".toList ++ best ++ "\n---".toList

/-- The body of `response.data.map(async (item, index) => ...)`
(src/index.ts lines 237-260), paired with the provider calls it makes.
The `console.error` on an embedding-count mismatch (lines 244-248) only
logs; the scoring then proceeds with score 0 for the missing embeddings. -/
def processSearchItem {Emb : Type} (sim : Emb → Emb → ℚ) (provider : Provider Emb)
    (qe : Option Emb) (i : Nat) (it : SearchItem) :
    Except Text Text × List (List Text) :=
  let validChunks := (chunkText it.content 200).filter (fun c => !(trim c).isEmpty)
  if validChunks.isEmpty then (.ok (searchItemEmptyText i it), [])
  else
    let run := embedTextsRun provider validChunks
    (run.1.map fun chunkEmbeddings =>
       searchItemFullText i it
         (joinSep ['\n', '\n'] (searchSelect sim qe validChunks chunkEmbeddings)),
     run.2)

/-- `Promise.all` over the per-item promises: every promise fulfils and the
results are collected in order, or a rejection rejects the whole. -/
def mapME {α β : Type} (f : α → Except Text β) : List α → Except Text (List β)
  | [] => .ok []
  | x :: xs =>
    match f x with
    | .error e => .error e
    | .ok y =>
      match mapME f xs with
      | .error e => .error e
      | .ok ys => .ok (y :: ys)

/-- The fallible part of the search handler once results exist
(src/index.ts lines 231-263): embed the trimmed query once, process every
item, join with blank lines. -/
def searchBody {Emb : Type} (sim : Emb → Emb → ℚ) (provider : Provider Emb)
    (query : Text) (items : List SearchItem) : Except Text Text :=
  match (embedTextsRun provider [trim query]).1 with
  | .error e => .error e
  | .ok qArr =>
    match mapME (fun p => (processSearchItem sim provider qArr[0]? p.1 p.2).1)
        items.enum with
    | .error e => .error e
    | .ok texts => .ok (joinSep ['\n', '\n'] texts)

/-- The search tool handler (src/index.ts lines 214-277): an empty result
list answers `No search results found.`; a thrown error is caught and
rendered as `Search failed: ${error.message}`; otherwise the combined
content, wrapped in the envelope. -/
def searchTool {Emb : Type} (sim : Emb → Emb → ℚ) (provider : Provider Emb)
    (query : Text) (items : List SearchItem) : Envelope :=
  if items.length = 0 then mkEnvelope "No search results found.".toList
  else
    match searchBody sim provider query items with
    | .ok t => mkEnvelope t
    | .error e => mkEnvelope ("Search failed: ".toList ++ e)

/-- The chunk selection of the read-webpage handler (src/index.ts lines
348-358): the ranked selection when the query embedding is present and the
embedding count matches the chunk count, otherwise the first five valid
chunks unranked (`validChunks.slice(0, 5)`). -/
def readSelect {Emb : Type} (sim : Emb → Emb → ℚ) (qe : Option Emb)
    (chunks : List Text) (embs : List Emb) : List Text :=
  match qe with
  | some q =>
    if embs.length = chunks.length then bestChunks (scoreChunks sim (some q) chunks embs)
    else chunks.take 5
  | none => chunks.take 5

/-- `Title: ${title || "N/A"}\nURL: ${url}\n\nRelevant Content:\n${topChunks
|| "No content extracted."}` (src/index.ts lines 361-363). -/
def readOutput (title url topChunks : Text) : Text :=
  "Title: ".toList ++ (if title.isEmpty then "N/A".toList else title)
    ++ "\nURL: ".toList ++ url ++ "\n\nRelevant Content:\n".toList
    ++ (if topChunks.isEmpty then "No content extracted.".toList else topChunks)

/-- The fallible part of the read-webpage handler (src/index.ts lines
334-363), given the fetched page `title` and `content`: chunk, embed the
valid chunks, embed the query (falling back to the title when the query
trims empty), select, format. -/
def readWebpageBody {Emb : Type} (sim : Emb → Emb → ℚ) (provider : Provider Emb)
    (url query title content : Text) : Except Text Text :=
  let validChunks := (chunkText content 200).filter (fun c => !(trim c).isEmpty)
  if validChunks.isEmpty then .ok (readOutput title url [])
  else
    match (embedTextsRun provider validChunks).1 with
    | .error e => .error e
    | .ok chunkEmbeddings =>
      let queryText := if (trim query).isEmpty then title else trim query
      match (embedTextsRun provider [queryText]).1 with
      | .error e => .error e
      | .ok qArr =>
        .ok (readOutput title url
          (joinSep ['\n', '\n'] (readSelect sim qArr[0]? validChunks chunkEmbeddings)))

/-- The read-webpage tool handler (src/index.ts lines 325-379). -/
def readWebpageTool {Emb : Type} (sim : Emb → Emb → ℚ) (provider : Provider Emb)
    (url query title content : Text) : Envelope :=
  match readWebpageBody sim provider url query title content with
  | .ok t => mkEnvelope t
  | .error e => mkEnvelope ("Reading webpage failed: ".toList ++ e)

/-! ## Lemmas about the handlers -/

theorem processSearchItem_fst {Emb : Type} (sim : Emb → Emb → ℚ)
    (provider : Provider Emb) (qe : Option Emb) (i : Nat) (it : SearchItem) :
    (processSearchItem sim provider qe i it).1
      = if ((chunkText it.content 200).filter (fun c => !(trim c).isEmpty)).isEmpty
        then .ok (searchItemEmptyText i it)
        else (embedTextsRun provider
            ((chunkText it.content 200).filter (fun c => !(trim c).isEmpty))).1.map
          fun chunkEmbeddings =>
            searchItemFullText i it (joinSep ['\n', '\n']
              (searchSelect sim qe
                ((chunkText it.content 200).filter (fun c => !(trim c).isEmpty))
                chunkEmbeddings)) := by
  rw [processSearchItem]
  by_cases h : ((chunkText it.content 200).filter (fun c => !(trim c).isEmpty)).isEmpty
  · simp only [h, if_true]
  · simp only [h, Bool.false_eq_true, if_false]

theorem embedTextsRun_fst_ok {Emb : Type} (provider : Provider Emb) (ts : List Text)
    (hok : ∀ call, ∃ r, provider call = .ok r) :
    ∃ embs, (embedTextsRun provider ts).1 = .ok embs := by
  simp only [embedTextsRun]
  by_cases h : ((ts.map trim).filter (fun t => !t.isEmpty)).isEmpty
  · exact ⟨[], by simp [h]⟩
  · obtain ⟨r, hr⟩ := hok ((ts.map trim).filter (fun t => !t.isEmpty))
    exact ⟨extractEmbeddings r, by simp [h, hr]⟩

theorem searchSelect_none {Emb : Type} (sim : Emb → Emb → ℚ)
    (chunks : List Text) (embs : List Emb) :
    searchSelect sim (none : Option Emb) chunks embs = chunks.take 5 := by
  rw [searchSelect, bestChunks_of_all_zero _ (scoreChunks_none_score sim chunks embs),
    scoreChunks_map_chunk]

theorem bestChunks_all_zero_map (chunks : List Text) :
    bestChunks (chunks.map fun c => ⟨c, 0⟩) = chunks.take 5 := by
  rw [bestChunks_of_all_zero, List.map_map]
  · rw [show (ScoredChunk.chunk ∘ fun c => (⟨c, 0⟩ : ScoredChunk)) = id from rfl,
      List.map_id]
  · intro u hu
    obtain ⟨c, _, rfl⟩ := List.mem_map.mp hu
    rfl

theorem searchSelect_length_le {Emb : Type} (sim : Emb → Emb → ℚ) (qe : Option Emb)
    (chunks : List Text) (embs : List Emb) :
    (searchSelect sim qe chunks embs).length ≤ chunks.length := by
  rw [searchSelect, bestChunks_length, scoreChunks_length]
  exact Nat.min_le_right _ _

theorem mapME_ok_of_forall {α β : Type} (f : α → Except Text β) (l : List α)
    (g : α → β) (h : ∀ x ∈ l, f x = .ok (g x)) : mapME f l = .ok (l.map g) := by
  induction l with
  | nil => rfl
  | cons x xs ih =>
    simp only [mapME, h x (by simp),
      ih fun y hy => h y (List.mem_cons_of_mem _ hy), List.map_cons]

theorem mapME_ok_mem {α β : Type} (f : α → Except Text β) (l : List α)
    (ys : List β) (h : mapME f l = .ok ys) : ∀ y ∈ ys, ∃ x ∈ l, f x = .ok y := by
  induction l generalizing ys with
  | nil =>
    simp only [mapME, Except.ok.injEq] at h
    subst h
    simp
  | cons x xs ih =>
    simp only [mapME] at h
    rcases hfx : f x with e | y0
    · rw [hfx] at h
      cases h
    · rw [hfx] at h
      rcases hrec : mapME f xs with e | ys0
      · rw [hrec] at h
        cases h
      · rw [hrec] at h
        simp only [Except.ok.injEq] at h
        subst h
        intro y hy
        rcases List.mem_cons.mp hy with rfl | hy2
        · exact ⟨x, by simp, hfx⟩
        · obtain ⟨x2, hx2, hfx2⟩ := ih ys0 hrec y hy2
          exact ⟨x2, List.mem_cons_of_mem _ hx2, hfx2⟩

theorem itemHeader_shape (i : Nat) (it : SearchItem) (suffix : Text) :
    ∃ r, itemHeader i it ++ suffix = "Result ".toList ++ r := by
  refine ⟨natText (i + 1) ++ ":\nTitle: ".toList ++ it.title ++ "\nURL: ".toList
    ++ it.url ++ suffix, ?_⟩
  simp [itemHeader, List.append_assoc]

theorem searchItemFullText_shape (i : Nat) (it : SearchItem) (best : Text) :
    ∃ r, searchItemFullText i it best = "Result ".toList ++ r := by
  obtain ⟨r, hr⟩ := itemHeader_shape i it
    ("\nRelevant Content:\n".toList ++ (best ++ "\n---".toList))
  refine ⟨r, ?_⟩
  rw [searchItemFullText, ← hr]
  simp [List.append_assoc]

theorem processSearchItem_fst_ok_shape {Emb : Type} (sim : Emb → Emb → ℚ)
    (provider : Provider Emb) (qe : Option Emb) (i : Nat) (it : SearchItem)
    (t : Text) (h : (processSearchItem sim provider qe i it).1 = .ok t) :
    ∃ r, t = "Result ".toList ++ r := by
  rw [processSearchItem_fst] at h
  by_cases hv : ((chunkText it.content 200).filter (fun c => !(trim c).isEmpty)).isEmpty
  · rw [if_pos hv] at h
    obtain rfl : searchItemEmptyText i it = t := by simpa using h
    exact itemHeader_shape i it _
  · rw [if_neg hv] at h
    rcases hrun : (embedTextsRun provider
        ((chunkText it.content 200).filter (fun c => !(trim c).isEmpty))).1 with e | embs
    · rw [hrun] at h
      simp [Except.map] at h
    · rw [hrun] at h
      simp only [Except.map, Except.ok.injEq] at h
      subst h
      exact searchItemFullText_shape i it _

theorem searchBody_ok_shape {Emb : Type} (sim : Emb → Emb → ℚ)
    (provider : Provider Emb) (query : Text) (items : List SearchItem) (t : Text)
    (h : searchBody sim provider query items = .ok t) :
    t = [] ∨ ∃ r, t = "Result ".toList ++ r := by
  rw [searchBody] at h
  split at h
  · simp at h
  · rename_i qArr hq
    split at h
    · simp at h
    · rename_i texts hm
      simp only [Except.ok.injEq] at h
      subst h
      cases texts with
      | nil => exact Or.inl rfl
      | cons t0 ts =>
        right
        obtain ⟨p, _, hfp⟩ := mapME_ok_mem _ _ _ hm t0 (by simp)
        obtain ⟨r0, hr0⟩ := processSearchItem_fst_ok_shape sim provider qArr[0]?
          p.1 p.2 t0 hfp
        cases ts with
        | nil => exact ⟨r0, hr0⟩
        | cons t1 ts1 =>
          refine ⟨r0 ++ ['\n', '\n'] ++ joinSep ['\n', '\n'] (t1 :: ts1), ?_⟩
          rw [joinSep_cons_of_ne_nil _ _ _ (by simp), hr0]
          simp [List.append_assoc]

theorem append_head_ne (c d : Char) (x y z w : Text) (hcd : c ≠ d) :
    (c :: x) ++ y ≠ (d :: z) ++ w := by
  intro h
  simp only [List.cons_append, List.cons.injEq] at h
  exact hcd h.1

/-! ## Claim C4 -/

/-- C4: a document whose chunk sequence is empty after filtering
trimmed-empty chunks is answered with the placeholder item text, with no
embedding-provider call and no error. -/
theorem empty_document_no_embed_call {Emb : Type} (sim : Emb → Emb → ℚ)
    (provider : Provider Emb) (qe : Option Emb) (i : Nat) (it : SearchItem)
    (h : (chunkText it.content 200).filter (fun c => !(trim c).isEmpty) = []) :
    processSearchItem sim provider qe i it = (.ok (searchItemEmptyText i it), []) := by
  rw [processSearchItem]
  simp [h]

/-- Witness for C4: a result item with empty content makes no embedding
call. -/
theorem empty_document_no_embed_call_witness :
    processSearchItem (fun _ _ : Unit => (0 : ℚ))
      (fun _ => Except.error "down".toList) none 0
      ⟨"t".toList, "u".toList, "".toList⟩
      = (.ok (searchItemEmptyText 0 ⟨"t".toList, "u".toList, "".toList⟩), []) :=
  empty_document_no_embed_call _ _ _ _ _ (by decide)

/-! ## Claim C5 -/

/-- C5: when obtaining embeddings fails (the search body propagates a
provider error message), the tool returns the `Search failed:` payload; the
envelope still holds exactly one text element, so it validates against the
output schema; and the payload is distinguishable from every non-failure
output: it differs from the no-result answer and from every text a
successful body can produce (those are empty or start with `Result `). -/
theorem embed_failure_envelope {Emb : Type} (sim : Emb → Emb → ℚ)
    (provider : Provider Emb) (query : Text) (items : List SearchItem) (msg : Text)
    (hne : items ≠ [])
    (hfail : searchBody sim provider query items = .error msg) :
    searchTool sim provider query items
      = mkEnvelope ("Search failed: ".toList ++ msg)
    ∧ (searchTool sim provider query items).content.length = 1
    ∧ ("Search failed: ".toList ++ msg) ≠ "No search results found.".toList
    ∧ ∀ (provider2 : Provider Emb) (query2 : Text) (items2 : List SearchItem)
        (t : Text),
        searchBody sim provider2 query2 items2 = .ok t →
        ("Search failed: ".toList ++ msg) ≠ t := by
  have henv : searchTool sim provider query items
      = mkEnvelope ("Search failed: ".toList ++ msg) := by
    rw [searchTool, if_neg (by simpa using fun h0 => hne (List.length_eq_zero.mp h0)),
      hfail]
  refine ⟨henv, by rw [henv]; rfl, ?_, ?_⟩
  · exact append_head_ne 'S' 'N' "earch failed: ".toList msg
      "o search results found.".toList [] (by decide)
  · intro provider2 query2 items2 t hokt
    rcases searchBody_ok_shape sim provider2 query2 items2 t hokt with rfl | ⟨r, rfl⟩
    · simp
    · exact append_head_ne 'S' 'R' "earch failed: ".toList msg "esult ".toList r
        (by decide)

/-- Witness for C5: an always-failing provider yields the failure payload
in a valid envelope. -/
theorem embed_failure_envelope_witness :
    searchTool (fun _ _ : Unit => (0 : ℚ)) (fun _ => Except.error "boom".toList)
      "q".toList [⟨"t".toList, "u".toList, "a".toList⟩]
      = mkEnvelope ("Search failed: boom".toList) :=
  (embed_failure_envelope (fun _ _ : Unit => (0 : ℚ))
    (fun _ => Except.error "boom".toList) "q".toList
    [⟨"t".toList, "u".toList, "a".toList⟩] "boom".toList
    (by decide) (by rfl)).1

/-! ## Claim C9 -/

/-- The per-document output the empty-query search run is expected to
produce: its first five valid chunks in original document order (the claim
writes `min(5, n)` chunks, which is what `take 5` yields). -/
def emptyQueryItemText (i : Nat) (it : SearchItem) : Text :=
  let validChunks := (chunkText it.content 200).filter (fun c => !(trim c).isEmpty)
  if validChunks.isEmpty then searchItemEmptyText i it
  else searchItemFullText i it (joinSep ['\n', '\n'] (validChunks.take 5))

theorem processSearchItem_none {Emb : Type} (sim : Emb → Emb → ℚ)
    (provider : Provider Emb) (i : Nat) (it : SearchItem)
    (hok : ∀ call, ∃ r, provider call = .ok r) :
    (processSearchItem sim provider (none : Option Emb) i it).1
      = .ok (emptyQueryItemText i it) := by
  rw [processSearchItem_fst, emptyQueryItemText]
  by_cases hv : ((chunkText it.content 200).filter (fun c => !(trim c).isEmpty)).isEmpty
  · simp [hv]
  · obtain ⟨embs, hembs⟩ := embedTextsRun_fst_ok provider
      ((chunkText it.content 200).filter (fun c => !(trim c).isEmpty)) hok
    simp only [hv, Bool.false_eq_true, if_false, hembs, Except.map, searchSelect_none]

/-- C9: when the query is empty after trimming, no query embedding is
produced, every valid chunk of every result document is scored 0, and the
relevant content of each document consists of its first five valid chunks
in original document order. -/
theorem empty_query_order {Emb : Type} (sim : Emb → Emb → ℚ)
    (provider : Provider Emb) (query : Text) (items : List SearchItem)
    (hq : trim query = []) (hok : ∀ call, ∃ r, provider call = .ok r)
    (hne : items ≠ []) :
    (∀ (chunks : List Text) (embs : List Emb),
        ∀ u ∈ scoreChunks sim (none : Option Emb) chunks embs, u.score = 0)
    ∧ searchTool sim provider query items
      = mkEnvelope (joinSep ['\n', '\n']
          (items.enum.map fun p => emptyQueryItemText p.1 p.2)) := by
  refine ⟨fun chunks embs => scoreChunks_none_score sim chunks embs, ?_⟩
  have hqrun : (embedTextsRun provider [trim query]).1 = .ok [] := by
    rw [hq]
    rfl
  have hbody : searchBody sim provider query items
      = .ok (joinSep ['\n', '\n']
          (items.enum.map fun p => emptyQueryItemText p.1 p.2)) := by
    simp only [searchBody, hqrun, List.getElem?_nil]
    rw [mapME_ok_of_forall _ _ (fun p => emptyQueryItemText p.1 p.2)
      (fun p _ => processSearchItem_none sim provider p.1 p.2 hok)]
  rw [searchTool, if_neg (by simpa using fun h0 => hne (List.length_eq_zero.mp h0)),
    hbody]

/-- Witness for C9: an all-whitespace query returns the first chunks of the
one result document in order. -/
theorem empty_query_order_witness :
    searchTool (fun _ _ : Unit => (0 : ℚ)) (fun _ => Except.ok (.flat []))
      " ".toList [⟨"t".toList, "u".toList, "a b".toList⟩]
      = mkEnvelope (joinSep ['\n', '\n']
          (([⟨"t".toList, "u".toList, "a b".toList⟩] : List SearchItem).enum.map
            fun p => emptyQueryItemText p.1 p.2)) :=
  (empty_query_order (fun _ _ : Unit => (0 : ℚ)) (fun _ => Except.ok (.flat []))
    " ".toList [⟨"t".toList, "u".toList, "a b".toList⟩]
    (by decide) (fun call => ⟨.flat [], rfl⟩) (by decide)).2

/-! ## Claim C2 -/

/-- C2: when the provider returned fewer embedding vectors than valid
chunks, no ranking operation raises an error and both operations follow the
score-0 policy — a chunk lacking an embedding stays in the pool with score
0, none is dropped.  Concretely: the search scoring gives score 0 to every
chunk whose index is past the end of the embedding list, and its output has
at most as many chunks as the valid input; the read-webpage selection falls
back to the first five chunks, which equals the ranking in which every
chunk is scored 0, and its output also has at most as many chunks as the
valid input; and the per-item search processing still succeeds (no raised
error) whenever the provider calls themselves succeed, whatever vector
counts they return. -/
theorem count_mismatch_policy {Emb : Type} (sim : Emb → Emb → ℚ) (qe : Option Emb)
    (chunks : List Text) (embs : List Emb)
    (h : embs.length < chunks.length) :
    (∀ (i : Nat) (u : ScoredChunk),
        (scoreChunks sim qe chunks embs)[i]? = some u → embs.length ≤ i →
        u.score = 0)
    ∧ (searchSelect sim qe chunks embs).length ≤ chunks.length
    ∧ readSelect sim qe chunks embs = bestChunks (chunks.map fun c => ⟨c, 0⟩)
    ∧ (readSelect sim qe chunks embs).length ≤ chunks.length
    ∧ ∀ (provider : Provider Emb) (i : Nat) (it : SearchItem),
        (∀ call, ∃ r, provider call = .ok r) →
        ∃ t, (processSearchItem sim provider qe i it).1 = .ok t := by
  have hread : readSelect sim qe chunks embs = chunks.take 5 := by
    cases qe with
    | none => rfl
    | some q => rw [readSelect, if_neg (Nat.ne_of_lt h)]
  refine ⟨?_, searchSelect_length_le sim qe chunks embs, ?_, ?_, ?_⟩
  · intro i u hu hi
    exact scoreChunks_missing_score sim qe chunks embs i u hu hi
  · rw [hread, bestChunks_all_zero_map]
  · rw [hread, List.length_take]
    exact Nat.min_le_right _ _
  · intro provider i it hok
    rw [processSearchItem_fst]
    by_cases hv : ((chunkText it.content 200).filter (fun c => !(trim c).isEmpty)).isEmpty
    · exact ⟨searchItemEmptyText i it, by rw [if_pos hv]⟩
    · obtain ⟨embs2, hembs2⟩ := embedTextsRun_fst_ok provider _ hok
      exact ⟨_, by rw [if_neg hv, hembs2]; rfl⟩

/-- Witness for C2: three valid chunks, two embedding vectors — the
read-webpage fallback equals the all-zero-score ranking. -/
theorem count_mismatch_policy_witness :
    readSelect (fun _ _ : Unit => (1 : ℚ)) (some ())
      ["a".toList, "b".toList, "c".toList] [(), ()]
      = bestChunks (["a".toList, "b".toList, "c".toList].map fun c => ⟨c, 0⟩) :=
  (count_mismatch_policy (fun _ _ : Unit => (1 : ℚ)) (some ())
    ["a".toList, "b".toList, "c".toList] [(), ()] (by decide)).2.2.1

end JinaMcp
